import Mathlib

/-!
Verification of the BujoNow Entry Store (`src/journal_manager.py`).

The Python `JournalManager` persists one JSON document per calendar date,
under a path `YYYY-MM/YYYY-MM-DD.json` derived from the date (we model paths
relative to the fixed `journal_dir`, since the constant directory prefix is
shared by every path and carries no information).  We shallow-embed:

* `Date` — the date part of a Python `datetime` (the store only ever reads
  and writes date-granularity information; `datetime` years are 1..9999);
* `Entry` — the JSON document built by `create_entry`;
* the filesystem as an association list from path to either a successfully
  parsed document (`RawDoc.valid`) or a file whose contents fail to parse
  as JSON (`RawDoc.corrupt`); `json.dump` over an existing path replaces
  the file, which is `alistInsert`;
* the manager operations `create_entry`, `get_entry`, `update_entry`,
  `search_entries`, `get_all_entries`, `record_entry`.  A Python exception
  escaping an operation (the `json.JSONDecodeError` that `get_entry` does
  not catch) is `Except.error ()`.  `datetime.now().isoformat()` is an
  opaque `nowTs : String` parameter.  Scans (`os.walk`) visit files in
  list order; the warnings a scan prints are returned as the list of the
  offending file paths, in scan order.
-/

namespace BujoNow

/-! ## Dates and their textual form -/

/-- The date part of a Python `datetime`. -/
structure Date where
  year : Nat
  month : Nat
  day : Nat
deriving DecidableEq, Repr

/-- Leap-year rule used by Python's `datetime` validation. -/
def isLeap (y : Nat) : Bool :=
  y % 4 = 0 && (y % 100 != 0 || y % 400 = 0)

/-- Number of days of a month, as validated by `datetime.strptime`. -/
def daysInMonth (y m : Nat) : Nat :=
  if m = 2 then (if isLeap y then 29 else 28)
  else if m = 4 || m = 6 || m = 9 || m = 11 then 30
  else 31

/-- A date `datetime` accepts: years 1..9999 (MINYEAR..MAXYEAR), real
calendar month/day. -/
def Date.isValid (d : Date) : Bool :=
  decide (1 ≤ d.year ∧ d.year ≤ 9999 ∧ 1 ≤ d.month ∧ d.month ≤ 12 ∧
    1 ≤ d.day ∧ d.day ≤ daysInMonth d.year d.month)

/-- Python `datetime` order, restricted to date granularity. -/
def dateLeB (a b : Date) : Bool :=
  a.year < b.year ||
    (a.year = b.year &&
      (a.month < b.month || (a.month = b.month && a.day ≤ b.day)))

/-- The character of a decimal digit. -/
def digitChar (n : Nat) : Char := Char.ofNat (48 + n)

/-- The ten characters of `date.strftime("%Y-%m-%d")` (zero-padded;
`datetime` years never exceed four digits). -/
def dateChars (d : Date) : List Char :=
  [digitChar (d.year / 1000), digitChar (d.year / 100 % 10),
   digitChar (d.year / 10 % 10), digitChar (d.year % 10), '-',
   digitChar (d.month / 10), digitChar (d.month % 10), '-',
   digitChar (d.day / 10), digitChar (d.day % 10)]

/-- `date.strftime("%Y-%m-%d")`. -/
def formatDate (d : Date) : String := String.mk (dateChars d)

/-- `date.strftime("%Y-%m")`. -/
def formatMonth (d : Date) : String :=
  String.mk [digitChar (d.year / 1000), digitChar (d.year / 100 % 10),
    digitChar (d.year / 10 % 10), digitChar (d.year % 10), '-',
    digitChar (d.month / 10), digitChar (d.month % 10)]

/-! ### Character-level string primitives

Python string operations are modelled character by character, by structural
recursion, so that every definition evaluates inside the kernel. -/

/-- Split a character list at every occurrence of `sep` (Python
`str.split(sep)` for a one-character separator: empty pieces kept).
`acc` holds the current piece reversed. -/
def splitOnChar (sep : Char) : List Char → List Char → List (List Char)
  | acc, [] => [acc.reverse]
  | acc, c :: rest =>
    if c = sep then acc.reverse :: splitOnChar sep [] rest
    else splitOnChar sep (c :: acc) rest

/-- The numeric value of an all-digit character list, accumulator style. -/
def digitsToNat? : Nat → List Char → Option Nat
  | acc, [] => some acc
  | acc, c :: rest =>
    if 48 ≤ c.val.toNat ∧ c.val.toNat ≤ 57 then
      digitsToNat? (acc * 10 + (c.val.toNat - 48)) rest
    else none

/-- What a `\d+` group of `strptime` converts: a nonempty all-digit
character list; anything else fails. -/
def strToNat? (l : List Char) : Option Nat :=
  match l with
  | [] => none
  | _ => digitsToNat? 0 l

/-- `datetime.strptime(s, "%Y-%m-%d")`: each `%Y`/`%m`/`%d` matches one to
four (resp. one to two) digits, and the resulting numbers must form a valid
`datetime` date. -/
def parseDate (s : String) : Option Date :=
  match splitOnChar '-' [] s.data with
  | [ys, ms, ds] =>
    if ys.length ≤ 4 && ms.length ≤ 2 && ds.length ≤ 2 then
      match strToNat? ys, strToNat? ms, strToNat? ds with
      | some y, some m, some dd =>
        let d : Date := ⟨y, m, dd⟩
        if d.isValid then some d else none
      | _, _, _ => none
    else none
  | _ => none

/-! ## Python values stored in the flexible parts of an entry -/

/-- A JSON scalar-ish value, enough for the payloads the store never
inspects structurally (emotion-analysis values, task/goal/chat fields). -/
inductive JVal where
  | s (v : String)
  | n (v : Int)
  | l (v : List String)
deriving DecidableEq, Repr

/-- A Python `dict` with string keys, as an association list whose keys are
unique (the `dict` invariant); lookups take the first binding. -/
abbrev PyDict := List (String × JVal)

/-- `d[k]` / `d.get(k)`. -/
def dictLookup (d : PyDict) (k : String) : Option JVal :=
  (d.find? (fun p => p.1 = k)).map (fun p => p.2)

/-- `d[k] = v`: replace the first binding of `k`, else append. -/
def dictInsert (d : PyDict) (k : String) (v : JVal) : PyDict :=
  match d with
  | [] => [(k, v)]
  | (k1, v1) :: rest =>
    if k1 = k then (k, v) :: rest else (k1, v1) :: dictInsert rest k v

/-- `merged = old.copy(); merged.update(new)`. -/
def dictUpdate (old new : PyDict) : PyDict :=
  new.foldl (fun acc p => dictInsert acc p.1 p.2) old

/-- The `ai_summary` value stored in an entry: either the empty list `[]`
(the Python default `ai_summary or []`) or a string. -/
inductive AiSum where
  | emptyList
  | str (v : String)
deriving DecidableEq, Repr

/-- Python truthiness of an `AiSum` value. -/
def AiSum.truthy : AiSum → Bool
  | .emptyList => false
  | .str v => v ≠ ""

/-! ## The Entry document -/

/-- The `content` sub-document of an entry. -/
structure Content where
  text : String
  tasks : List PyDict
  goals : List PyDict
  tags : List String
  chat_history : List PyDict
  ai_summary : AiSum
deriving DecidableEq, Repr

/-- The `metadata` sub-document of an entry. -/
structure Metadata where
  last_modified : String
  word_count : Nat
  has_tasks : Bool
  has_goals : Bool
  has_chat_history : Bool
  has_ai_summary : Bool
deriving DecidableEq, Repr

/-- A journal entry document as written by `create_entry`. -/
structure Entry where
  date : String
  timestamp : String
  category : String
  content : Content
  emotion_analysis : PyDict
  metadata : Metadata
deriving DecidableEq, Repr

/-- Python whitespace for `str.split()` (the ASCII classes). -/
def isPyWhitespace (c : Char) : Bool :=
  c = ' ' || c = '\t' || c = '\n' || c = '\x0d' || c = '\x0b' || c = '\x0c'

/-- The splitting loop of `str.split()`: whitespace-separated tokens,
empty runs dropped; `acc` holds the current token reversed. -/
def pyWordsAux : List Char → List Char → List (List Char)
  | acc, [] => if acc.isEmpty then [] else [acc.reverse]
  | acc, c :: rest =>
    if isPyWhitespace c then
      if acc.isEmpty then pyWordsAux [] rest
      else acc.reverse :: pyWordsAux [] rest
    else pyWordsAux (c :: acc) rest

/-- `text.split()` — `len(text.split())` is the stored word count. -/
def pyWords (s : String) : List String :=
  (pyWordsAux [] s.data).map String.mk

/-- Replace every occurrence of the character `c` by `rep` (Python
`str.replace` for a one-character pattern). -/
def replaceChar (c : Char) (rep : List Char) : List Char → List Char
  | [] => []
  | a :: as => (if a = c then rep else [a]) ++ replaceChar c rep as

/-- `text.replace("\n", "\\n").replace('[', '').replace(']', '')` — the
transformation `record_entry` applies to the incoming text before merging
(each pattern is a single character, applied left to right). -/
def sanitizeText (s : String) : String :=
  String.mk (replaceChar ']' []
    (replaceChar '[' [] (replaceChar '\n' ['\\', 'n'] s.data)))

/-! ## The on-disk store -/

/-- What reading a stored file yields: a parsed document, or a JSON decode
failure.  (Documents that parse as JSON but lack the entry shape are out of
scope: every write in the store produces the full shape.) -/
inductive RawDoc where
  | valid (e : Entry)
  | corrupt
deriving DecidableEq, Repr

/-- The journal directory: paths (relative to `journal_dir`) to files. -/
abbrev FS := List (String × RawDoc)

instance {ε α : Type} [DecidableEq ε] [DecidableEq α] :
    DecidableEq (Except ε α) := fun a b =>
  match a, b with
  | .ok x, .ok y => decidable_of_iff (x = y) (by simp)
  | .ok _, .error _ => isFalse (by simp)
  | .error _, .ok _ => isFalse (by simp)
  | .error e, .error f => decidable_of_iff (e = f) (by simp)

/-- Lookup of a path. -/
def fsLookup (fs : FS) (p : String) : Option RawDoc :=
  (fs.find? (fun q => q.1 = p)).map (fun q => q.2)

/-- Writing a file: replace the first binding of the path, else append. -/
def fsWrite (fs : FS) (p : String) (d : RawDoc) : FS :=
  match fs with
  | [] => [(p, d)]
  | (q, v) :: rest =>
    if q = p then (p, d) :: rest else (q, v) :: fsWrite rest p d

/-- `_get_journal_path`: `os.path.join(dir, "%Y-%m", "%Y-%m-%d.json")`,
relative to the journal directory. -/
def get_journal_path (date : Date) : String :=
  formatMonth date ++ "/" ++ formatDate date ++ ".json"

/-! ## Manager operations -/

/-- The entry dictionary `create_entry` builds.  `nowTs` stands for
`datetime.now().isoformat()`. -/
def mkCreatedEntry (text : String) (emotion_analysis : PyDict) (date : Date)
    (tasks goals : List PyDict) (tags : List String) (category : String)
    (chat_history : List PyDict) (ai_summary : Option String)
    (nowTs : String) : Entry :=
  { date := formatDate date
    timestamp := nowTs
    category := category
    content :=
      { text := text
        tasks := tasks
        goals := goals
        tags := tags
        chat_history := chat_history
        ai_summary :=
          match ai_summary with
          | some s => if s = "" then .emptyList else .str s
          | none => .emptyList }
    emotion_analysis := emotion_analysis
    metadata :=
      { last_modified := nowTs
        word_count := (pyWords text).length
        has_tasks := !tasks.isEmpty
        has_goals := !goals.isEmpty
        has_chat_history := !chat_history.isEmpty
        has_ai_summary :=
          match ai_summary with
          | some s => s ≠ ""
          | none => false } }

/-- `create_entry`: build the document and save it at the date's path
(a plain overwrite of whatever was there). -/
def create_entry (fs : FS) (text : String) (emotion_analysis : PyDict)
    (date : Date) (tasks goals : List PyDict) (tags : List String)
    (category : String) (chat_history : List PyDict)
    (ai_summary : Option String) (nowTs : String) : FS × Entry :=
  let entry := mkCreatedEntry text emotion_analysis date tasks goals tags
    category chat_history ai_summary nowTs
  (fsWrite fs (get_journal_path date) (.valid entry), entry)

/-- `get_entry`: open the date's path; a missing file (`FileNotFoundError`)
is caught and returns `None`; a decode failure propagates. -/
def get_entry (fs : FS) (date : Date) : Except Unit (Option Entry) :=
  match fsLookup fs (get_journal_path date) with
  | none => .ok none
  | some .corrupt => .error ()
  | some (.valid e) => .ok (some e)

/-- The in-place mutations `update_entry` performs on a loaded entry:
`text` and `emotion_analysis` are applied under Python truthiness
(`if text:` — a supplied empty string or empty dict is ignored), the other
parameters under `is not None`; `last_modified` is always restamped. -/
def updateApply (entry : Entry) (text : Option String)
    (emotion_analysis : Option PyDict) (tasks goals : Option (List PyDict))
    (tags : Option (List String)) (chat_history : Option (List PyDict))
    (ai_summary : Option AiSum) (nowTs : String) : Entry :=
    let e1 :=
      match text with
      | some t =>
        if t = "" then entry
        else { entry with
                 content := { entry.content with text := t }
                 metadata := { entry.metadata with
                                 word_count := (pyWords t).length } }
      | none => entry
    let e2 :=
      match emotion_analysis with
      | some m => if m.isEmpty then e1 else { e1 with emotion_analysis := m }
      | none => e1
    let e3 :=
      match tasks with
      | some l => { e2 with
                      content := { e2.content with tasks := l }
                      metadata := { e2.metadata with
                                      has_tasks := !l.isEmpty } }
      | none => e2
    let e4 :=
      match goals with
      | some l => { e3 with
                      content := { e3.content with goals := l }
                      metadata := { e3.metadata with
                                      has_goals := !l.isEmpty } }
      | none => e3
    let e5 :=
      match tags with
      | some l => { e4 with content := { e4.content with tags := l } }
      | none => e4
    let e6 :=
      match chat_history with
      | some l => { e5 with
                      content := { e5.content with chat_history := l }
                      metadata := { e5.metadata with
                                      has_chat_history := !l.isEmpty } }
      | none => e5
    let e7 :=
      match ai_summary with
      | some a => { e6 with
                      content := { e6.content with ai_summary := a }
                      metadata := { e6.metadata with
                                      has_ai_summary := a.truthy } }
      | none => e6
    { e7 with metadata := { e7.metadata with last_modified := nowTs } }

/-- `update_entry`: load the existing entry (absent gives `None`, no
write); apply the supplied fields via `updateApply`; save. -/
def update_entry (fs : FS) (date : Date) (text : Option String)
    (emotion_analysis : Option PyDict) (tasks goals : Option (List PyDict))
    (tags : Option (List String)) (chat_history : Option (List PyDict))
    (ai_summary : Option AiSum) (nowTs : String) :
    Except Unit (FS × Option Entry) :=
  match get_entry fs date with
  | .error e => .error e
  | .ok none => .ok (fs, none)
  | .ok (some entry) =>
    let e8 := updateApply entry text emotion_analysis tasks goals tags
      chat_history ai_summary nowTs
    .ok (fsWrite fs (get_journal_path date) (.valid e8), some e8)

/-- `record_entry` (the upsert-merge): create if absent; else prepend the
sanitized new text onto the old, merge the analysis dict key by key,
concatenate tasks/goals/tags new-first, append new chat messages, keep the
old `ai_summary` unless a truthy new one is given, and `update_entry`. -/
def record_entry (fs : FS) (text : String) (emotion_analysis : PyDict)
    (date : Date) (tasks goals : List PyDict) (tags : List String)
    (category : String) (chat_history : List PyDict)
    (ai_summary : Option String) (nowTs : String) :
    Except Unit (FS × Option Entry) :=
  match get_entry fs date with
  | .error e => .error e
  | .ok none =>
    let r := create_entry fs text emotion_analysis date tasks goals tags
      category chat_history ai_summary nowTs
    .ok (r.1, some r.2)
  | .ok (some entry) =>
    let updatedEmotion := dictUpdate entry.emotion_analysis emotion_analysis
    let updatedChat :=
      if chat_history.isEmpty then entry.content.chat_history
      else entry.content.chat_history ++ chat_history
    let updatedAi : AiSum :=
      match ai_summary with
      | some s => if s = "" then entry.content.ai_summary else .str s
      | none => entry.content.ai_summary
    update_entry fs date
      (some (sanitizeText text ++ " \n " ++ entry.content.text))
      (some updatedEmotion)
      (some (tasks ++ entry.content.tasks))
      (some (goals ++ entry.content.goals))
      (some (tags ++ entry.content.tags))
      (some updatedChat)
      (some updatedAi)
      nowTs

/-! ## Scans: string order, stable sort, search, list-all -/

/-- Python string `<=`: lexicographic on code points. -/
def listLeB : List Char → List Char → Bool
  | [], _ => true
  | _ :: _, [] => false
  | a :: as, b :: bs =>
    if a.val.toNat < b.val.toNat then true
    else if b.val.toNat < a.val.toNat then false
    else listLeB as bs

/-- Python `<=` on strings. -/
def strLeB (a b : String) : Bool := listLeB a.data b.data

/-- Insert an entry after every entry whose date key is `<=` its own —
the position a stable sort by the `date` string gives it. -/
def insertSorted (e : Entry) : List Entry → List Entry
  | [] => [e]
  | x :: xs =>
    if strLeB x.date e.date then x :: insertSorted e xs else e :: x :: xs

/-- `sorted(entries, key=lambda x: x['date'])` (Python's sort is stable;
inserting each element, in scan order, after equal keys reproduces it). -/
def sortByDate (l : List Entry) : List Entry :=
  l.foldl (fun acc e => insertSorted e acc) []

/-- Character-list prefix test. -/
def prefixMatch : List Char → List Char → Bool
  | [], _ => true
  | _ :: _, [] => false
  | a :: as, b :: bs => a = b && prefixMatch as bs

/-- Python `str.endswith`, via reversed prefix comparison. -/
def strEndsWith (s post : String) : Bool :=
  prefixMatch post.data.reverse s.data.reverse

/-- ASCII case folding of one character. -/
def lowerChar (c : Char) : Char :=
  if 65 ≤ c.val.toNat ∧ c.val.toNat ≤ 90 then Char.ofNat (c.val.toNat + 32)
  else c

/-- Python `str.lower()` (ASCII case fold suffices for our claims). -/
def pyLower (s : String) : String := String.mk (s.data.map lowerChar)

/-- The emotion filter predicate of `search_entries`, for entries that
reach it: with no truthy requested emotion every entry passes; otherwise
the entry's `primary_emotion` must be a string matching case-insensitively
(a missing or non-string `primary_emotion` raises inside the `try`, so the
entry is skipped with a warning — handled in `searchCollect`). -/
def emoKeep (emotion : Option String) (e : Entry) : Bool :=
  match emotion with
  | none => true
  | some s =>
    if s = "" then true
    else
      match dictLookup e.emotion_analysis "primary_emotion" with
      | some (.s p) => pyLower p = pyLower s
      | _ => false

/-- Whether the emotion filter raises an exception for this entry
(`entry['emotion_analysis']['primary_emotion'].lower()` with the key
missing or bound to a non-string). -/
def emoRaises (emotion : Option String) (e : Entry) : Bool :=
  match emotion with
  | none => false
  | some s =>
    if s = "" then false
    else
      match dictLookup e.emotion_analysis "primary_emotion" with
      | some (.s _) => false
      | _ => true

/-- The tag filter of `search_entries`: skip when `tags` is truthy and no
requested tag occurs in the entry's tag list. -/
def tagKeep (tags : List String) (e : Entry) : Bool :=
  tags.isEmpty || tags.any (fun t => e.content.tags.contains t)

/-- The accumulation loop of `search_entries`: visit files in scan order,
consider only `.json` names, parse (corrupt gives a warning), parse the
entry's date with `strptime` (failure is caught: warning), keep entries in
the inclusive range passing both filters.  Returns the kept entries in
scan order and the warned paths in scan order. -/
def searchCollect (start_date end_date : Date) (tags : List String)
    (emotion : Option String) : FS → List Entry × List String
  | [] => ([], [])
  | (p, doc) :: rest =>
    let r := searchCollect start_date end_date tags emotion rest
    if strEndsWith p ".json" then
      match doc with
      | .corrupt => (r.1, p :: r.2)
      | .valid e =>
        match parseDate e.date with
        | none => (r.1, p :: r.2)
        | some ed =>
          if dateLeB start_date ed && dateLeB ed end_date then
            if !tagKeep tags e then r
            else if emoRaises emotion e then (r.1, p :: r.2)
            else if !emoKeep emotion e then r
            else (e :: r.1, r.2)
          else r
    else r

/-- `search_entries`: collect, then sort ascending by the date string.
Returns the result list and the warned paths. -/
def search_entries (fs : FS) (start_date end_date : Date)
    (tags : List String) (emotion : Option String) :
    List Entry × List String :=
  let r := searchCollect start_date end_date tags emotion fs
  (sortByDate r.1, r.2)

/-- The accumulation loop of `get_all_entries`: every parseable `.json`
document is kept, corrupt ones produce a warning; no date parsing. -/
def allCollect : FS → List Entry × List String
  | [] => ([], [])
  | (p, doc) :: rest =>
    let r := allCollect rest
    if strEndsWith p ".json" then
      match doc with
      | .corrupt => (r.1, p :: r.2)
      | .valid e => (e :: r.1, r.2)
    else r

/-- `get_all_entries`: collect everything, sort ascending by date string. -/
def get_all_entries (fs : FS) : List Entry × List String :=
  let r := allCollect fs
  (sortByDate r.1, r.2)

/-! ## Lemmas about the path-keyed store -/

/-- How many files of the store sit at path `p`. -/
def countFor (fs : FS) (p : String) : Nat :=
  fs.countP (fun q => q.1 = p)

theorem fsLookup_fsWrite_self (fs : FS) (p : String) (v : RawDoc) :
    fsLookup (fsWrite fs p v) p = some v := by
  induction fs with
  | nil => simp [fsWrite, fsLookup]
  | cons hd tl ih =>
    obtain ⟨q, w⟩ := hd
    by_cases h : q = p
    · subst h; simp [fsWrite, fsLookup]
    · simp only [fsWrite, if_neg h]
      simpa [fsLookup, List.find?_cons, h] using ih

theorem nodup_keys_fsWrite (fs : FS) (p : String) (v : RawDoc)
    (h : (fs.map Prod.fst).Nodup) :
    ((fsWrite fs p v).map Prod.fst).Nodup := by
  induction fs with
  | nil => simp [fsWrite]
  | cons hd tl ih =>
    obtain ⟨q, w⟩ := hd
    simp only [List.map_cons, List.nodup_cons] at h
    by_cases hq : q = p
    · subst hq
      simpa [fsWrite, List.nodup_cons] using h
    · simp only [fsWrite, if_neg hq, List.map_cons, List.nodup_cons]
      refine ⟨?_, ih h.2⟩
      intro hmem
      rcases List.mem_map.mp hmem with ⟨⟨r, u⟩, hr, hru⟩
      subst hru
      have : (r, u).1 ∈ tl.map Prod.fst ∨ (r, u).1 = p := by
        clear h ih hmem
        induction tl with
        | nil => simp [fsWrite] at hr; simp [hr]
        | cons hd2 tl2 ih2 =>
          obtain ⟨q2, w2⟩ := hd2
          by_cases h2 : q2 = p
          · subst h2
            simp only [fsWrite, if_pos rfl] at hr
            rcases List.mem_cons.mp hr with h3 | h3
            · right; exact congrArg Prod.fst h3
            · left
              exact List.mem_map_of_mem Prod.fst (List.mem_cons_of_mem _ h3)
          · simp only [fsWrite, if_neg h2] at hr
            rcases List.mem_cons.mp hr with h3 | h3
            · left
              simp only [List.map_cons, List.mem_cons]
              left
              exact congrArg Prod.fst h3
            · rcases ih2 h3 with h4 | h4
              · left
                simp only [List.map_cons, List.mem_cons]
                right; exact h4
              · right; exact h4
      rcases this with h4 | h4
      · exact h.1 h4
      · exact hq h4

theorem countFor_cons (q : String) (w : RawDoc) (tl : FS) (p : String) :
    countFor ((q, w) :: tl) p = countFor tl p + if q = p then 1 else 0 := by
  by_cases h : q = p <;> simp [countFor, List.countP_cons, h]

theorem countFor_eq_zero_of_not_mem (tl : FS) (p : String)
    (h : p ∉ tl.map Prod.fst) : countFor tl p = 0 := by
  rw [countFor, List.countP_eq_zero]
  intro ⟨r, u⟩ hr
  simp only [decide_eq_true_eq]
  intro hru
  exact h (List.mem_map.mpr ⟨(r, u), hr, hru⟩)

theorem countFor_le_one_of_nodup (fs : FS) (p : String)
    (h : (fs.map Prod.fst).Nodup) : countFor fs p ≤ 1 := by
  induction fs with
  | nil => simp [countFor]
  | cons hd tl ih =>
    obtain ⟨q, w⟩ := hd
    simp only [List.map_cons, List.nodup_cons] at h
    rw [countFor_cons]
    by_cases hq : q = p
    · subst hq
      rw [countFor_eq_zero_of_not_mem tl q h.1]
      simp
    · have := ih h.2
      simp [hq]
      omega

theorem countFor_fsWrite_self (fs : FS) (p : String) (v : RawDoc)
    (h : (fs.map Prod.fst).Nodup) : countFor (fsWrite fs p v) p = 1 := by
  induction fs with
  | nil => simp [fsWrite, countFor, List.countP_cons]
  | cons hd tl ih =>
    obtain ⟨q, w⟩ := hd
    simp only [List.map_cons, List.nodup_cons] at h
    by_cases hq : q = p
    · subst hq
      simp only [fsWrite, eq_self_iff_true, if_true]
      rw [countFor_cons, countFor_eq_zero_of_not_mem tl q h.1]
      simp
    · simp only [fsWrite, if_neg hq]
      rw [countFor_cons, ih h.2, if_neg hq]

/-! ## Lemmas about Python dict merge -/

theorem dictLookup_dictInsert_self (d : PyDict) (k : String) (v : JVal) :
    dictLookup (dictInsert d k v) k = some v := by
  induction d with
  | nil => simp [dictInsert, dictLookup]
  | cons hd tl ih =>
    obtain ⟨k1, v1⟩ := hd
    by_cases h : k1 = k
    · subst h; simp [dictInsert, dictLookup]
    · simp only [dictInsert, if_neg h]
      simpa [dictLookup, List.find?_cons, h] using ih

theorem dictLookup_dictInsert_other (d : PyDict) {k' k : String} (v : JVal)
    (h : k' ≠ k) : dictLookup (dictInsert d k' v) k = dictLookup d k := by
  induction d with
  | nil => simp [dictInsert, dictLookup, List.find?, h]
  | cons hd tl ih =>
    obtain ⟨k1, v1⟩ := hd
    by_cases h1 : k1 = k'
    · subst h1
      simp [dictInsert, dictLookup, List.find?_cons, h]
    · by_cases h2 : k1 = k
      · subst h2
        simp [dictInsert, if_neg h1, dictLookup, List.find?_cons]
      · simp only [dictInsert, if_neg h1]
        simpa [dictLookup, List.find?_cons, h2] using ih

theorem dictLookup_dictUpdate_of_none (old new : PyDict) (k : String)
    (h : dictLookup new k = none) :
    dictLookup (dictUpdate old new) k = dictLookup old k := by
  induction new generalizing old with
  | nil => simp [dictUpdate]
  | cons hd tl ih =>
    obtain ⟨k1, v1⟩ := hd
    have hk1 : k1 ≠ k := by
      intro hk; subst hk
      simp [dictLookup, List.find?_cons] at h
    have htl : dictLookup tl k = none := by
      simpa [dictLookup, List.find?_cons, hk1] using h
    calc dictLookup (dictUpdate old ((k1, v1) :: tl)) k
        = dictLookup (dictUpdate (dictInsert old k1 v1) tl) k := rfl
      _ = dictLookup (dictInsert old k1 v1) k := ih _ htl
      _ = dictLookup old k := dictLookup_dictInsert_other _ _ hk1

theorem dictLookup_dictUpdate_of_not_mem (old new : PyDict) (k : String)
    (h : k ∉ new.map Prod.fst) :
    dictLookup (dictUpdate old new) k = dictLookup old k := by
  induction new generalizing old with
  | nil => simp [dictUpdate]
  | cons hd tl ih =>
    obtain ⟨k1, v1⟩ := hd
    simp only [List.map_cons, List.mem_cons] at h
    push_neg at h
    calc dictLookup (dictUpdate old ((k1, v1) :: tl)) k
        = dictLookup (dictUpdate (dictInsert old k1 v1) tl) k := rfl
      _ = dictLookup (dictInsert old k1 v1) k := ih _ h.2
      _ = dictLookup old k := dictLookup_dictInsert_other _ _ (fun he => h.1 he.symm)

theorem dictLookup_dictUpdate_of_some (old new : PyDict) (k : String)
    (v : JVal) (hnd : (new.map Prod.fst).Nodup)
    (h : dictLookup new k = some v) :
    dictLookup (dictUpdate old new) k = some v := by
  induction new generalizing old with
  | nil => simp [dictLookup] at h
  | cons hd tl ih =>
    obtain ⟨k1, v1⟩ := hd
    simp only [List.map_cons, List.nodup_cons] at hnd
    by_cases hk : k1 = k
    · subst hk
      have hv : v1 = v := by
        simpa [dictLookup, List.find?_cons] using h
      subst hv
      calc dictLookup (dictUpdate old ((k1, v1) :: tl)) k1
          = dictLookup (dictUpdate (dictInsert old k1 v1) tl) k1 := rfl
        _ = dictLookup (dictInsert old k1 v1) k1 :=
            dictLookup_dictUpdate_of_not_mem _ _ _ hnd.1
        _ = some v1 := dictLookup_dictInsert_self _ _ _
    · have htl : dictLookup tl k = some v := by
        simpa [dictLookup, List.find?_cons, hk] using h
      exact ih _ hnd.2 htl

theorem length_le_dictInsert (d : PyDict) (k : String) (v : JVal) :
    d.length ≤ (dictInsert d k v).length ∧ 1 ≤ (dictInsert d k v).length := by
  induction d with
  | nil => simp [dictInsert]
  | cons hd tl ih =>
    obtain ⟨k1, v1⟩ := hd
    by_cases h : k1 = k
    · subst h; simp [dictInsert]
    · simp only [dictInsert, if_neg h, List.length_cons]
      omega

theorem dictUpdate_eq_nil (old new : PyDict) (h : dictUpdate old new = []) :
    old = [] ∧ new = [] := by
  have hlen : ∀ (l : PyDict) (acc : PyDict),
      acc.length ≤ (l.foldl (fun a p => dictInsert a p.1 p.2) acc).length := by
    intro l
    induction l with
    | nil => intro acc; simp
    | cons hd tl ih =>
      intro acc
      calc acc.length ≤ (dictInsert acc hd.1 hd.2).length :=
            (length_le_dictInsert acc hd.1 hd.2).1
        _ ≤ _ := ih (dictInsert acc hd.1 hd.2)
  constructor
  · have := hlen new old
    rw [show new.foldl (fun a p => dictInsert a p.1 p.2) old = dictUpdate old new from rfl, h] at this
    simpa using List.length_eq_zero.mp (Nat.le_zero.mp this)
  · cases new with
    | nil => rfl
    | cons hd tl =>
      exfalso
      have h1 : 1 ≤ (dictInsert old hd.1 hd.2).length :=
        (length_le_dictInsert old hd.1 hd.2).2
      have h2 := hlen tl (dictInsert old hd.1 hd.2)
      rw [show tl.foldl (fun a p => dictInsert a p.1 p.2) (dictInsert old hd.1 hd.2) = dictUpdate old (hd :: tl) from rfl, h] at h2
      simp only [List.length_nil] at h2
      omega

/-! ## Lemmas about update and record -/

/-- Field-by-field description of `updateApply`: truthiness-guarded
application for `text` and `emotion_analysis`, `is not None` application
for the rest, recomputation of the dependent metadata, everything else
untouched except `last_modified`. -/
theorem updateApply_fields (e : Entry) (t : Option String)
    (m : Option PyDict) (tk g : Option (List PyDict))
    (tg : Option (List String)) (ch : Option (List PyDict))
    (ai : Option AiSum) (ts : String) :
    let u := updateApply e t m tk g tg ch ai ts
    u.date = e.date ∧
    u.timestamp = e.timestamp ∧
    u.category = e.category ∧
    u.content.text =
      (match t with
       | some s => if s = "" then e.content.text else s
       | none => e.content.text) ∧
    u.metadata.word_count =
      (match t with
       | some s => if s = "" then e.metadata.word_count
                   else (pyWords s).length
       | none => e.metadata.word_count) ∧
    u.emotion_analysis =
      (match m with
       | some l => if l.isEmpty then e.emotion_analysis else l
       | none => e.emotion_analysis) ∧
    u.content.tasks = tk.getD e.content.tasks ∧
    u.metadata.has_tasks =
      (match tk with
       | some l => !l.isEmpty
       | none => e.metadata.has_tasks) ∧
    u.content.goals = g.getD e.content.goals ∧
    u.metadata.has_goals =
      (match g with
       | some l => !l.isEmpty
       | none => e.metadata.has_goals) ∧
    u.content.tags = tg.getD e.content.tags ∧
    u.content.chat_history = ch.getD e.content.chat_history ∧
    u.metadata.has_chat_history =
      (match ch with
       | some l => !l.isEmpty
       | none => e.metadata.has_chat_history) ∧
    u.content.ai_summary = ai.getD e.content.ai_summary ∧
    u.metadata.has_ai_summary =
      (match ai with
       | some a => a.truthy
       | none => e.metadata.has_ai_summary) ∧
    u.metadata.last_modified = ts := by
  cases t <;> cases m <;> cases tk <;> cases g <;> cases tg <;> cases ch <;>
    cases ai <;>
    simp only [updateApply, Option.getD] <;>
    first
      | (split_ifs <;> simp_all)
      | simp_all

/-- Unfolding `update_entry` when the entry exists. -/
theorem update_entry_of_found {fs : FS} {date : Date} {e : Entry}
    (h : get_entry fs date = .ok (some e)) (t : Option String)
    (m : Option PyDict) (tk g : Option (List PyDict))
    (tg : Option (List String)) (ch : Option (List PyDict))
    (ai : Option AiSum) (ts : String) :
    update_entry fs date t m tk g tg ch ai ts =
      .ok (fsWrite fs (get_journal_path date)
             (.valid (updateApply e t m tk g tg ch ai ts)),
           some (updateApply e t m tk g tg ch ai ts)) := by
  unfold update_entry
  rw [h]

/-- Unfolding `record_entry` when the entry exists: it delegates to
`update_entry` with the merged field values. -/
theorem record_entry_of_found {fs : FS} {date : Date} {e : Entry}
    (h : get_entry fs date = .ok (some e)) (text : String) (m : PyDict)
    (tk g : List PyDict) (tg : List String) (cat : String)
    (ch : List PyDict) (ai : Option String) (ts : String) :
    record_entry fs text m date tk g tg cat ch ai ts =
      update_entry fs date
        (some (sanitizeText text ++ " \n " ++ e.content.text))
        (some (dictUpdate e.emotion_analysis m))
        (some (tk ++ e.content.tasks))
        (some (g ++ e.content.goals))
        (some (tg ++ e.content.tags))
        (some (if ch.isEmpty then e.content.chat_history
               else e.content.chat_history ++ ch))
        (some (match ai with
               | some s => if s = "" then e.content.ai_summary else .str s
               | none => e.content.ai_summary))
        ts := by
  unfold record_entry
  rw [h]

/-- The merged text `record_entry` builds is never the empty string, so
the truthiness test in `update_entry` always lets it through. -/
theorem merged_text_ne_empty (a b : String) :
    (a ++ " \n " ++ b) = "" → False := by
  intro h
  have h1 := congrArg String.length h
  rw [String.length_append, String.length_append] at h1
  have h2 : (" \n " : String).length = 3 := rfl
  have h3 : ("" : String).length = 0 := rfl
  omega

/-! ## Lemmas about the string order and date formatting -/

theorem listLeB_total (a : List Char) :
    ∀ b, listLeB a b = true ∨ listLeB b a = true := by
  induction a with
  | nil => intro b; left; rfl
  | cons x xs ih =>
    intro b
    cases b with
    | nil => right; rfl
    | cons y ys =>
      simp only [listLeB]
      by_cases h1 : x.val.toNat < y.val.toNat
      · left; rw [if_pos h1]
      · by_cases h2 : y.val.toNat < x.val.toNat
        · right; rw [if_pos h2]
        · rw [if_neg h1, if_neg h2, if_neg h2, if_neg h1]
          exact ih ys

theorem listLeB_trans (a : List Char) :
    ∀ b c, listLeB a b = true → listLeB b c = true → listLeB a c = true := by
  induction a with
  | nil => intro b c _ _; rfl
  | cons x xs ih =>
    intro b c hab hbc
    cases b with
    | nil => simp [listLeB] at hab
    | cons y ys =>
      cases c with
      | nil => simp [listLeB] at hbc
      | cons z zs =>
        simp only [listLeB] at hab hbc ⊢
        by_cases h1 : x.val.toNat < y.val.toNat
        · have h3 : ¬ z.val.toNat < y.val.toNat := by
            intro h4
            rw [if_neg (by omega), if_pos h4] at hbc
            exact absurd hbc (by simp)
          rw [if_pos (by omega)]
        · have h1' : ¬ y.val.toNat < x.val.toNat := by
            intro h4
            rw [if_neg h1, if_pos h4] at hab
            exact absurd hab (by simp)
          rw [if_neg h1, if_neg h1'] at hab
          by_cases h2 : y.val.toNat < z.val.toNat
          · rw [if_pos (by omega)]
          · have h2' : ¬ z.val.toNat < y.val.toNat := by
              intro h4
              rw [if_neg h2, if_pos h4] at hbc
              exact absurd hbc (by simp)
            rw [if_neg h2, if_neg h2'] at hbc
            rw [if_neg (by omega), if_neg (by omega)]
            exact ih ys zs hab hbc

theorem strLeB_total (a b : String) :
    strLeB a b = true ∨ strLeB b a = true :=
  listLeB_total a.data b.data

theorem strLeB_trans {a b c : String} (h1 : strLeB a b = true)
    (h2 : strLeB b c = true) : strLeB a c = true :=
  listLeB_trans a.data b.data c.data h1 h2

theorem digitChar_val (n : Nat) (h : n < 10) :
    (digitChar n).val.toNat = 48 + n := by
  interval_cases n <;> decide

theorem listLeB_nil (l : List Char) : listLeB [] l = true := rfl

theorem listLeB_cons_eq (x y : Char) (xs ys : List Char) :
    listLeB (x :: xs) (y :: ys) =
      if x.val.toNat < y.val.toNat then true
      else if y.val.toNat < x.val.toNat then false
      else listLeB xs ys := rfl

theorem listLeB_cons_same (c : Char) (xs ys : List Char) :
    listLeB (c :: xs) (c :: ys) = listLeB xs ys := by
  rw [listLeB_cons_eq, if_neg (Nat.lt_irrefl _), if_neg (Nat.lt_irrefl _)]

theorem daysInMonth_le_31 (y m : Nat) : daysInMonth y m ≤ 31 := by
  unfold daysInMonth
  split_ifs <;> simp

/-- Because strftime zero-pads and `datetime` years stay below 10000, the
code-point order on formatted dates agrees with the calendar order. -/
theorem strLeB_formatDate {a b : Date} (ha : a.isValid = true)
    (hb : b.isValid = true) :
    strLeB (formatDate a) (formatDate b) = dateLeB a b := by
  rw [Date.isValid, decide_eq_true_eq] at ha hb
  obtain ⟨ha1, ha2, ha3, ha4, ha5, ha6⟩ := ha
  obtain ⟨hb1, hb2, hb3, hb4, hb5, hb6⟩ := hb
  have ha7 : a.day ≤ 31 := le_trans ha6 (daysInMonth_le_31 _ _)
  have hb7 : b.day ≤ 31 := le_trans hb6 (daysInMonth_le_31 _ _)
  have c1 := digitChar_val (a.year / 1000) (by omega)
  have c2 := digitChar_val (a.year / 100 % 10) (by omega)
  have c3 := digitChar_val (a.year / 10 % 10) (by omega)
  have c4 := digitChar_val (a.year % 10) (by omega)
  have c5 := digitChar_val (a.month / 10) (by omega)
  have c6 := digitChar_val (a.month % 10) (by omega)
  have c7 := digitChar_val (a.day / 10) (by omega)
  have c8 := digitChar_val (a.day % 10) (by omega)
  have d1 := digitChar_val (b.year / 1000) (by omega)
  have d2 := digitChar_val (b.year / 100 % 10) (by omega)
  have d3 := digitChar_val (b.year / 10 % 10) (by omega)
  have d4 := digitChar_val (b.year % 10) (by omega)
  have d5 := digitChar_val (b.month / 10) (by omega)
  have d6 := digitChar_val (b.month % 10) (by omega)
  have d7 := digitChar_val (b.day / 10) (by omega)
  have d8 := digitChar_val (b.day % 10) (by omega)
  have hdl : ∀ x y : Date, dateLeB x y = true ↔
      (x.year < y.year ∨ (x.year = y.year ∧
        (x.month < y.month ∨ (x.month = y.month ∧ x.day ≤ y.day)))) := by
    intro x y
    simp [dateLeB, Bool.or_eq_true, Bool.and_eq_true, decide_eq_true_eq]
  show listLeB (dateChars a) (dateChars b) = dateLeB a b
  unfold dateChars
  rw [listLeB_cons_eq, c1, d1, listLeB_cons_eq, c2, d2,
    listLeB_cons_eq, c3, d3, listLeB_cons_eq, c4, d4,
    listLeB_cons_same, listLeB_cons_eq, c5, d5, listLeB_cons_eq, c6, d6,
    listLeB_cons_same, listLeB_cons_eq, c7, d7, listLeB_cons_eq, c8, d8,
    listLeB_nil]
  rcases Nat.lt_trichotomy (48 + a.year / 1000) (48 + b.year / 1000) with h1 | h1 | h1
  · rw [if_pos h1]; symm; rw [hdl]; omega
  · rw [if_neg (by omega), if_neg (by omega)]
    rcases Nat.lt_trichotomy (48 + a.year / 100 % 10) (48 + b.year / 100 % 10) with h2 | h2 | h2
    · rw [if_pos h2]; symm; rw [hdl]; omega
    · rw [if_neg (by omega), if_neg (by omega)]
      rcases Nat.lt_trichotomy (48 + a.year / 10 % 10) (48 + b.year / 10 % 10) with h3 | h3 | h3
      · rw [if_pos h3]; symm; rw [hdl]; omega
      · rw [if_neg (by omega), if_neg (by omega)]
        rcases Nat.lt_trichotomy (48 + a.year % 10) (48 + b.year % 10) with h4 | h4 | h4
        · rw [if_pos h4]; symm; rw [hdl]; omega
        · rw [if_neg (by omega), if_neg (by omega)]
          rcases Nat.lt_trichotomy (48 + a.month / 10) (48 + b.month / 10) with h5 | h5 | h5
          · rw [if_pos h5]; symm; rw [hdl]; omega
          · rw [if_neg (by omega), if_neg (by omega)]
            rcases Nat.lt_trichotomy (48 + a.month % 10) (48 + b.month % 10) with h6 | h6 | h6
            · rw [if_pos h6]; symm; rw [hdl]; omega
            · rw [if_neg (by omega), if_neg (by omega)]
              rcases Nat.lt_trichotomy (48 + a.day / 10) (48 + b.day / 10) with h7 | h7 | h7
              · rw [if_pos h7]; symm; rw [hdl]; omega
              · rw [if_neg (by omega), if_neg (by omega)]
                rcases Nat.lt_trichotomy (48 + a.day % 10) (48 + b.day % 10) with h8 | h8 | h8
                · rw [if_pos h8]; symm; rw [hdl]; omega
                · rw [if_neg (by omega), if_neg (by omega)]; symm; rw [hdl]; omega
                · rw [if_neg (by omega), if_pos h8]; symm; rw [← Bool.not_eq_true, hdl]; omega

              · rw [if_neg (by omega), if_pos h7]; symm; rw [← Bool.not_eq_true, hdl]; omega

            · rw [if_neg (by omega), if_pos h6]; symm; rw [← Bool.not_eq_true, hdl]; omega

          · rw [if_neg (by omega), if_pos h5]; symm; rw [← Bool.not_eq_true, hdl]; omega

        · rw [if_neg (by omega), if_pos h4]; symm; rw [← Bool.not_eq_true, hdl]; omega

      · rw [if_neg (by omega), if_pos h3]; symm; rw [← Bool.not_eq_true, hdl]; omega

    · rw [if_neg (by omega), if_pos h2]; symm; rw [← Bool.not_eq_true, hdl]; omega

  · rw [if_neg (by omega), if_pos h1]; symm; rw [← Bool.not_eq_true, hdl]; omega

/-! ## Lemmas about the stable sort by date string -/

theorem mem_insertSorted (a e : Entry) (l : List Entry) :
    a ∈ insertSorted e l ↔ a = e ∨ a ∈ l := by
  induction l with
  | nil => simp [insertSorted]
  | cons x xs ih =>
    simp only [insertSorted]
    by_cases h : strLeB x.date e.date = true
    · rw [if_pos h]
      simp only [List.mem_cons, ih]
      tauto
    · rw [if_neg h]
      simp only [List.mem_cons]

theorem pairwise_insertSorted (e : Entry) (l : List Entry)
    (hl : l.Pairwise (fun a b => strLeB a.date b.date = true)) :
    (insertSorted e l).Pairwise (fun a b => strLeB a.date b.date = true) := by
  induction l with
  | nil => simp [insertSorted]
  | cons x xs ih =>
    rw [List.pairwise_cons] at hl
    simp only [insertSorted]
    by_cases h : strLeB x.date e.date = true
    · rw [if_pos h, List.pairwise_cons]
      refine ⟨?_, ih hl.2⟩
      intro b hb
      rcases (mem_insertSorted b e xs).mp hb with rfl | hb2
      · exact h
      · exact hl.1 b hb2
    · rw [if_neg h, List.pairwise_cons]
      have hex : strLeB e.date x.date = true := by
        rcases strLeB_total x.date e.date with h2 | h2
        · exact absurd h2 h
        · exact h2
      refine ⟨?_, List.pairwise_cons.mpr hl⟩
      intro b hb
      rcases List.mem_cons.mp hb with rfl | hb2
      · exact hex
      · exact strLeB_trans hex (hl.1 b hb2)

theorem pairwise_sortAux (l : List Entry) :
    ∀ acc, acc.Pairwise (fun a b => strLeB a.date b.date = true) →
      (l.foldl (fun acc e => insertSorted e acc) acc).Pairwise
        (fun a b => strLeB a.date b.date = true) := by
  induction l with
  | nil => intro acc h; simpa using h
  | cons x xs ih =>
    intro acc h
    exact ih (insertSorted x acc) (pairwise_insertSorted x acc h)

theorem pairwise_sortByDate (l : List Entry) :
    (sortByDate l).Pairwise (fun a b => strLeB a.date b.date = true) :=
  pairwise_sortAux l [] (by simp)

theorem mem_sortAux (l : List Entry) :
    ∀ acc a, a ∈ l.foldl (fun acc e => insertSorted e acc) acc ↔
      a ∈ acc ∨ a ∈ l := by
  induction l with
  | nil => intro acc a; simp
  | cons x xs ih =>
    intro acc a
    rw [List.foldl_cons, ih (insertSorted x acc) a, mem_insertSorted]
    simp only [List.mem_cons]
    tauto

theorem mem_sortByDate (l : List Entry) (a : Entry) :
    a ∈ sortByDate l ↔ a ∈ l := by
  rw [sortByDate, mem_sortAux]
  simp

/-! ## Membership in the search scan -/

theorem emoKeep_of_raises {em : Option String} {e : Entry}
    (h : emoRaises em e = true) : emoKeep em e = false := by
  cases em with
  | none => simp [emoRaises] at h
  | some s =>
    by_cases hs : s = ""
    · simp [emoRaises, hs] at h
    · simp only [emoRaises, if_neg hs] at h
      simp only [emoKeep, if_neg hs]
      cases hl : dictLookup e.emotion_analysis "primary_emotion" with
      | none => rfl
      | some v => cases v <;> simp_all

theorem mem_searchCollect (s e : Date) (tg : List String)
    (em : Option String) (fs : FS) (a : Entry) :
    a ∈ (searchCollect s e tg em fs).1 ↔
      ∃ p, (p, RawDoc.valid a) ∈ fs ∧ strEndsWith p ".json" = true ∧
        (∃ ed, parseDate a.date = some ed ∧
          dateLeB s ed = true ∧ dateLeB ed e = true) ∧
        tagKeep tg a = true ∧ emoKeep em a = true := by
  induction fs with
  | nil => simp [searchCollect]
  | cons hd rest ih =>
    obtain ⟨p, doc⟩ := hd
    have hsplit : ∀ (P : String → Prop),
        (∃ p', (p', RawDoc.valid a) ∈ (p, doc) :: rest ∧ P p') ↔
          ((p, RawDoc.valid a) = (p, doc) ∧ P p) ∨
            (∃ p', (p', RawDoc.valid a) ∈ rest ∧ P p') := by
      intro P
      constructor
      · rintro ⟨p', hmem, hP⟩
        rcases List.mem_cons.mp hmem with heq | hmem2
        · left
          have hp : p' = p := congrArg Prod.fst heq
          subst hp
          exact ⟨heq, hP⟩
        · right; exact ⟨p', hmem2, hP⟩
      · rintro (⟨heq, hP⟩ | ⟨p', hmem2, hP⟩)
        · exact ⟨p, by rw [heq]; exact List.mem_cons_self _ _, hP⟩
        · exact ⟨p', List.mem_cons_of_mem _ hmem2, hP⟩
    by_cases hj : strEndsWith p ".json" = true
    · cases doc with
      | corrupt =>
        have hL : (searchCollect s e tg em ((p, RawDoc.corrupt) :: rest)).1 =
            (searchCollect s e tg em rest).1 := by
          simp [searchCollect, hj]
        rw [hL, ih]
        rw [hsplit (fun p' => strEndsWith p' ".json" = true ∧
          (∃ ed, parseDate a.date = some ed ∧
            dateLeB s ed = true ∧ dateLeB ed e = true) ∧
          tagKeep tg a = true ∧ emoKeep em a = true)]
        constructor
        · intro h; right; exact h
        · rintro (⟨heq, _⟩ | h)
          · exact absurd (congrArg Prod.snd heq) (by simp)
          · exact h
      | valid e0 =>
        rw [hsplit (fun p' => strEndsWith p' ".json" = true ∧
          (∃ ed, parseDate a.date = some ed ∧
            dateLeB s ed = true ∧ dateLeB ed e = true) ∧
          tagKeep tg a = true ∧ emoKeep em a = true)]
        cases hp : parseDate e0.date with
        | none =>
          have hL : (searchCollect s e tg em ((p, RawDoc.valid e0) :: rest)).1 =
              (searchCollect s e tg em rest).1 := by
            simp [searchCollect, hj, hp]
          rw [hL, ih]
          constructor
          · intro h; right; exact h
          · rintro (⟨heq, _, ⟨ed, hed, _⟩, _⟩ | h)
            · have ha : a = e0 := by
                have := congrArg Prod.snd heq
                simpa using this
              subst ha
              rw [hp] at hed
              exact absurd hed (by simp)
            · exact h
        | some ed0 =>
          by_cases hr : (dateLeB s ed0 && dateLeB ed0 e) = true
          · by_cases ht : tagKeep tg e0 = true
            · by_cases hraise : emoRaises em e0 = true
              · have hL : (searchCollect s e tg em
                    ((p, RawDoc.valid e0) :: rest)).1 =
                      (searchCollect s e tg em rest).1 := by
                  simp [searchCollect, hj, hp, hr, ht, hraise]
                rw [hL, ih]
                constructor
                · intro h; right; exact h
                · rintro (⟨heq, _, _, _, hke⟩ | h)
                  · have ha : a = e0 := by
                      have := congrArg Prod.snd heq
                      simpa using this
                    subst ha
                    rw [emoKeep_of_raises hraise] at hke
                    exact absurd hke (by simp)
                  · exact h
              · by_cases hke : emoKeep em e0 = true
                · have hL : (searchCollect s e tg em
                      ((p, RawDoc.valid e0) :: rest)).1 =
                        e0 :: (searchCollect s e tg em rest).1 := by
                    simp [searchCollect, hj, hp, hr, ht, hraise, hke]
                  rw [hL, List.mem_cons, ih]
                  constructor
                  · rintro (rfl | h)
                    · left
                      refine ⟨rfl, hj, ⟨ed0, hp, ?_, ?_⟩, ht, hke⟩
                      · exact (Bool.and_eq_true _ _ |>.mp hr).1
                      · exact (Bool.and_eq_true _ _ |>.mp hr).2
                    · right; exact h
                  · rintro (⟨heq, _⟩ | h)
                    · left
                      have := congrArg Prod.snd heq
                      simpa using this
                    · right; exact h
                · have hL : (searchCollect s e tg em
                      ((p, RawDoc.valid e0) :: rest)).1 =
                        (searchCollect s e tg em rest).1 := by
                    simp [searchCollect, hj, hp, hr, ht, hraise, hke]
                  rw [hL, ih]
                  constructor
                  · intro h; right; exact h
                  · rintro (⟨heq, _, _, _, hke2⟩ | h)
                    · have ha : a = e0 := by
                        have := congrArg Prod.snd heq
                        simpa using this
                      subst ha
                      exact absurd hke2 hke
                    · exact h
            · have hL : (searchCollect s e tg em
                  ((p, RawDoc.valid e0) :: rest)).1 =
                    (searchCollect s e tg em rest).1 := by
                simp [searchCollect, hj, hp, hr, ht]
              rw [hL, ih]
              constructor
              · intro h; right; exact h
              · rintro (⟨heq, _, _, ht2, _⟩ | h)
                · have ha : a = e0 := by
                    have := congrArg Prod.snd heq
                    simpa using this
                  subst ha
                  exact absurd ht2 ht
                · exact h
          · have hL : (searchCollect s e tg em
                ((p, RawDoc.valid e0) :: rest)).1 =
                  (searchCollect s e tg em rest).1 := by
              simp only [searchCollect, hj, if_true, hp]
              rw [if_neg hr]
            rw [hL, ih]
            constructor
            · intro h; right; exact h
            · rintro (⟨heq, _, ⟨ed, hed, h1, h2⟩, _⟩ | h)
              · have ha : a = e0 := by
                  have := congrArg Prod.snd heq
                  simpa using this
                subst ha
                rw [hp] at hed
                have hed2 : ed0 = ed := by simpa using hed
                subst hed2
                rw [h1, h2] at hr
                exact absurd rfl hr
              · exact h
    · have hL : (searchCollect s e tg em ((p, doc) :: rest)).1 =
          (searchCollect s e tg em rest).1 := by
        simp [searchCollect, hj]
      rw [hL, ih]
      rw [hsplit (fun p' => strEndsWith p' ".json" = true ∧
        (∃ ed, parseDate a.date = some ed ∧
          dateLeB s ed = true ∧ dateLeB ed e = true) ∧
        tagKeep tg a = true ∧ emoKeep em a = true)]
      constructor
      · intro h; right; exact h
      · rintro (⟨heq, hj2, _⟩ | h)
        · have hp : p = p := rfl
          have : strEndsWith p ".json" = true := by
            have hpp := congrArg Prod.fst heq
            simp at hpp
            exact hj2
          exact absurd this hj
        · exact h

/-! ## Sequences of store operations -/

/-- One mutating call into the manager, with the arguments of the
corresponding Python method. -/
inductive Op where
  | create (text : String) (emo : PyDict) (date : Date)
      (tasks goals : List PyDict) (tags : List String) (category : String)
      (chat : List PyDict) (ai : Option String) (nowTs : String)
  | update (date : Date) (text : Option String) (emo : Option PyDict)
      (tasks goals : Option (List PyDict)) (tags : Option (List String))
      (chat : Option (List PyDict)) (ai : Option AiSum) (nowTs : String)
  | record (text : String) (emo : PyDict) (date : Date)
      (tasks goals : List PyDict) (tags : List String) (category : String)
      (chat : List PyDict) (ai : Option String) (nowTs : String)

/-- The store after one call.  A raised exception leaves the store as it
was: in `update_entry` and `record_entry` the only raise happens while
reading, before any write. -/
def runOp (fs : FS) : Op → FS
  | .create t m d tk g tg c ch ai ts =>
    (create_entry fs t m d tk g tg c ch ai ts).1
  | .update d t m tk g tg ch ai ts =>
    match update_entry fs d t m tk g tg ch ai ts with
    | .ok r => r.1
    | .error _ => fs
  | .record t m d tk g tg c ch ai ts =>
    match record_entry fs t m d tk g tg c ch ai ts with
    | .ok r => r.1
    | .error _ => fs

/-- The store after a sequence of calls. -/
def runOps (fs : FS) (ops : List Op) : FS := ops.foldl runOp fs

/-- Every call either leaves the store unchanged or writes one file. -/
theorem runOp_shape (fs : FS) (op : Op) :
    runOp fs op = fs ∨ ∃ p v, runOp fs op = fsWrite fs p v := by
  cases op with
  | create t m d tk g tg c ch ai ts =>
    right
    exact ⟨get_journal_path d, _, rfl⟩
  | update d t m tk g tg ch ai ts =>
    cases hg : get_entry fs d with
    | error u => left; simp [runOp, update_entry, hg]
    | ok o =>
      cases o with
      | none => left; simp [runOp, update_entry, hg]
      | some e0 =>
        right
        refine ⟨get_journal_path d,
          .valid (updateApply e0 t m tk g tg ch ai ts), ?_⟩
        simp [runOp, update_entry, hg]
  | record t m d tk g tg c ch ai ts =>
    cases hg : get_entry fs d with
    | error u => left; simp [runOp, record_entry, hg]
    | ok o =>
      cases o with
      | none =>
        right
        refine ⟨get_journal_path d,
          .valid (mkCreatedEntry t m d tk g tg c ch ai ts), ?_⟩
        simp [runOp, record_entry, hg, create_entry]
      | some e0 =>
        right
        refine ⟨get_journal_path d,
          .valid (updateApply e0
            (some (sanitizeText t ++ " \n " ++ e0.content.text))
            (some (dictUpdate e0.emotion_analysis m))
            (some (tk ++ e0.content.tasks))
            (some (g ++ e0.content.goals))
            (some (tg ++ e0.content.tags))
            (some (if ch.isEmpty then e0.content.chat_history
                   else e0.content.chat_history ++ ch))
            (some (match ai with
                   | some s => if s = "" then e0.content.ai_summary
                               else .str s
                   | none => e0.content.ai_summary))
            ts), ?_⟩
        simp [runOp, record_entry, hg, update_entry]

theorem nodup_runOps (ops : List Op) :
    ∀ fs : FS, (fs.map Prod.fst).Nodup →
      ((runOps fs ops).map Prod.fst).Nodup := by
  induction ops with
  | nil => intro fs h; simpa [runOps] using h
  | cons op rest ih =>
    intro fs h
    show ((runOps (runOp fs op) rest).map Prod.fst).Nodup
    rcases runOp_shape fs op with heq | ⟨p, v, heq⟩
    · rw [heq]; exact ih fs h
    · rw [heq]; exact ih _ (nodup_keys_fsWrite fs p v h)

/-! ## Logical form of the search filters -/

theorem tagKeep_iff (tg : List String) (e : Entry) :
    tagKeep tg e = true ↔ (tg = [] ∨ ∃ t ∈ tg, t ∈ e.content.tags) := by
  simp [tagKeep, List.isEmpty_iff, List.any_eq_true, List.contains,
    List.elem_iff]

theorem emoKeep_iff (em : Option String) (e : Entry) :
    emoKeep em e = true ↔
      (∀ es, em = some es → es ≠ "" →
        ∃ pe, dictLookup e.emotion_analysis "primary_emotion" =
            some (JVal.s pe) ∧ pyLower pe = pyLower es) := by
  cases em with
  | none => simp [emoKeep]
  | some s =>
    by_cases hs : s = ""
    · subst hs
      simp [emoKeep]
    · simp only [emoKeep, if_neg hs, Option.some.injEq]
      cases hl : dictLookup e.emotion_analysis "primary_emotion" with
      | none =>
        constructor
        · intro h; simp at h
        · intro h
          obtain ⟨pe, hpe, _⟩ := h s rfl hs
          simp at hpe
      | some v =>
        cases v with
        | s pv =>
          constructor
          · intro h es hes hne
            subst hes
            refine ⟨pv, rfl, ?_⟩
            simpa using h
          · intro h
            obtain ⟨pe, hpe, hlow⟩ := h s rfl hs
            have hp : pv = pe := by
              have := Option.some.inj hpe
              injection this
            subst hp
            simpa using hlow
        | n pv =>
          constructor
          · intro h; simp at h
          · intro h
            obtain ⟨pe, hpe, _⟩ := h s rfl hs
            simp at hpe
        | l pv =>
          constructor
          · intro h; simp at h
          · intro h
            obtain ⟨pe, hpe, _⟩ := h s rfl hs
            simp at hpe

/-! ## Concrete stores used by the witnesses and counterexamples -/

def exampleDate : Date := ⟨2024, 1, 5⟩

def exampleEntryA : Entry :=
  mkCreatedEntry "A" [] exampleDate [] [] ["t1"] "daily" [] none "ts0"

def exampleStore : FS :=
  [(get_journal_path exampleDate, RawDoc.valid exampleEntryA)]

def exampleEntryK : Entry :=
  mkCreatedEntry "A" [("k", JVal.s "v")] exampleDate [] [] [] "daily" []
    none "ts0"

def exampleStoreK : FS :=
  [(get_journal_path exampleDate, RawDoc.valid exampleEntryK)]

/-! ## The claims -/

/-- C3: for every date `d` and text `t`, after `create(text=t, date=d)`
followed by `get(d)`, the returned entry's `date` field is `d` formatted
year-month-day, and its `metadata.word_count` is the number of
whitespace-separated tokens of `t`. -/
theorem create_then_get_date_and_word_count (fs : FS) (t : String)
    (m : PyDict) (d : Date) (tk g : List PyDict) (tg : List String)
    (cat : String) (ch : List PyDict) (ai : Option String) (ts : String) :
    get_entry (create_entry fs t m d tk g tg cat ch ai ts).1 d =
      .ok (some (mkCreatedEntry t m d tk g tg cat ch ai ts)) ∧
    (mkCreatedEntry t m d tk g tg cat ch ai ts).date = formatDate d ∧
    (mkCreatedEntry t m d tk g tg cat ch ai ts).metadata.word_count =
      (pyWords t).length := by
  refine ⟨?_, rfl, rfl⟩
  unfold create_entry get_entry
  rw [fsLookup_fsWrite_self]

/-- C4: `update` on a date with no stored document returns the absent
result (never raises) and returns the store unchanged — no document is
created or written. -/
theorem update_entry_absent_no_write (fs : FS) (d : Date)
    (t : Option String) (m : Option PyDict) (tk g : Option (List PyDict))
    (tg : Option (List String)) (ch : Option (List PyDict))
    (ai : Option AiSum) (ts : String)
    (h : fsLookup fs (get_journal_path d) = none) :
    update_entry fs d t m tk g tg ch ai ts = .ok (fs, none) := by
  unfold update_entry get_entry
  rw [h]

theorem update_entry_absent_no_write_witness :
    fsLookup [] (get_journal_path exampleDate) = none ∧
    update_entry [] exampleDate (some "x") none none none none none none
      "ts1" = .ok ([], none) :=
  ⟨rfl, update_entry_absent_no_write [] exampleDate (some "x") none none
    none none none none "ts1" rfl⟩

/-- C10: `get` treats only a missing file as absent: a stored but
unparseable document makes `get_entry` raise the decode error to the
caller, while a scan (`get_all_entries`) merely logs the corrupted path
and continues. -/
theorem get_entry_error_semantics (fs : FS) (d : Date) (p : String) :
    (fsLookup fs (get_journal_path d) = none → get_entry fs d = .ok none) ∧
    (fsLookup fs (get_journal_path d) = some .corrupt →
      get_entry fs d = .error ()) ∧
    (strEndsWith p ".json" = true →
      get_all_entries ((p, RawDoc.corrupt) :: fs) =
        ((get_all_entries fs).1, p :: (get_all_entries fs).2)) := by
  refine ⟨?_, ?_, ?_⟩
  · intro h; unfold get_entry; rw [h]
  · intro h; unfold get_entry; rw [h]
  · intro h
    simp [get_all_entries, allCollect, h]

theorem get_entry_error_semantics_witness :
    get_entry [] exampleDate = .ok none ∧
    get_entry [(get_journal_path exampleDate, RawDoc.corrupt)] exampleDate =
      .error () ∧
    get_all_entries [("2024-01/x.json", RawDoc.corrupt)] =
      ([], ["2024-01/x.json"]) :=
  ⟨(get_entry_error_semantics [] exampleDate "x").1 rfl,
   (get_entry_error_semantics
      [(get_journal_path exampleDate, RawDoc.corrupt)] exampleDate "x").2.1
      (by rw [fsLookup]; rfl),
   (get_entry_error_semantics [] exampleDate "2024-01/x.json").2.2
     (by decide)⟩

/-- Helper: the text stored by `record_entry` over an existing entry. -/
theorem record_entry_stored_text {fs : FS} {d : Date} {e : Entry}
    (B : String) (m : PyDict) (tk g : List PyDict) (tg : List String)
    (cat : String) (ch : List PyDict) (ai : Option String) (ts : String)
    (h : get_entry fs d = .ok (some e)) :
    ∃ fs' e', record_entry fs B m d tk g tg cat ch ai ts =
        .ok (fs', some e') ∧
      get_entry fs' d = .ok (some e') ∧
      e'.content.text = sanitizeText B ++ " \n " ++ e.content.text := by
  rw [record_entry_of_found h, update_entry_of_found h]
  refine ⟨_, _, rfl, ?_, ?_⟩
  · unfold get_entry
    rw [fsLookup_fsWrite_self]
  · obtain ⟨_, _, _, htext, _⟩ := updateApply_fields e
      (some (sanitizeText B ++ " \n " ++ e.content.text))
      (some (dictUpdate e.emotion_analysis m))
      (some (tk ++ e.content.tasks)) (some (g ++ e.content.goals))
      (some (tg ++ e.content.tags))
      (some (if ch.isEmpty then e.content.chat_history
             else e.content.chat_history ++ ch))
      (some (match ai with
             | some s => if s = "" then e.content.ai_summary else .str s
             | none => e.content.ai_summary)) ts
    rw [htext]
    show (if sanitizeText B ++ " \n " ++ e.content.text = ""
          then e.content.text
          else sanitizeText B ++ " \n " ++ e.content.text) =
        sanitizeText B ++ " \n " ++ e.content.text
    rw [if_neg (fun hh => merged_text_ne_empty _ _ hh)]

/-- The stored text after `upsert_merge(text="[B]")` over `exampleStore`
(whose entry for the date holds text `"A"`). -/
def exampleMergedText : Except Unit (Option String) :=
  (record_entry exampleStore "[B]" [] exampleDate [] [] [] "daily" []
    none "ts1").map (fun r => r.2.map (fun e => e.content.text))

/-- C1 (counterexample): the claimed equation
`get(d).content.text = B ++ " \n " ++ A` fails at `B = "[B]"`, `A = "A"`:
the stored text is `"B \n A"`, not `"[B] \n A"`, because the new text is
sanitized before the join. -/
theorem record_entry_text_not_verbatim :
    exampleMergedText = .ok (some "B \n A") ∧
      exampleMergedText ≠ .ok (some ("[B]" ++ " \n " ++ "A")) := by
  constructor
  · decide
  · decide

/-- C1 (amended): after `upsert_merge(text=B, date=d)` over an existing
entry with text `A`, `get(d).content.text` is
`sanitizeText B ++ " \n " ++ A` — the sanitized new text first, then the
exact delimiter space-newline-space, then the untouched old text; this is
`B ++ " \n " ++ A` exactly when `B` has no newline and no square
bracket. -/
theorem record_entry_text_sanitized_prepend (fs : FS) (d : Date)
    (e : Entry) (B : String) (m : PyDict) (tk g : List PyDict)
    (tg : List String) (cat : String) (ch : List PyDict)
    (ai : Option String) (ts : String)
    (h : get_entry fs d = .ok (some e)) :
    ∃ fs' e', record_entry fs B m d tk g tg cat ch ai ts =
        .ok (fs', some e') ∧
      get_entry fs' d = .ok (some e') ∧
      e'.content.text = sanitizeText B ++ " \n " ++ e.content.text :=
  record_entry_stored_text B m tk g tg cat ch ai ts h

theorem record_entry_text_sanitized_prepend_witness :
    get_entry exampleStore exampleDate = .ok (some exampleEntryA) ∧
    ∃ fs' e', record_entry exampleStore "B" [] exampleDate [] [] []
        "daily" [] none "ts1" = .ok (fs', some e') ∧
      get_entry fs' exampleDate = .ok (some e') ∧
      e'.content.text = sanitizeText "B" ++ " \n " ++
        exampleEntryA.content.text :=
  ⟨by decide, record_entry_text_sanitized_prepend exampleStore exampleDate
    exampleEntryA "B" [] [] [] [] "daily" [] none "ts1" (by decide)⟩

/-- C9: the new text is not prepended verbatim: every newline character
becomes the two-character sequence backslash-`n` and every square bracket
is deleted (the chained one-character `str.replace` calls, modelled by
`replaceChar`), while the stored old text is appended untransformed. -/
theorem record_entry_sanitizes_new_text (fs : FS) (d : Date) (e : Entry)
    (B : String) (m : PyDict) (tk g : List PyDict) (tg : List String)
    (cat : String) (ch : List PyDict) (ai : Option String) (ts : String)
    (h : get_entry fs d = .ok (some e)) :
    ∃ fs' e', record_entry fs B m d tk g tg cat ch ai ts =
        .ok (fs', some e') ∧
      e'.content.text =
        String.mk (replaceChar ']' [] (replaceChar '[' []
          (replaceChar '\n' ['\\', 'n'] B.data))) ++ " \n " ++
          e.content.text := by
  obtain ⟨fs', e', h1, _, h3⟩ :=
    record_entry_stored_text B m tk g tg cat ch ai ts h
  exact ⟨fs', e', h1, h3⟩

theorem record_entry_sanitizes_new_text_witness :
    get_entry exampleStore exampleDate = .ok (some exampleEntryA) ∧
    ∃ fs' e', record_entry exampleStore "x[y]\nz" [] exampleDate [] [] []
        "daily" [] none "ts1" = .ok (fs', some e') ∧
      e'.content.text =
        String.mk (replaceChar ']' [] (replaceChar '[' []
          (replaceChar '\n' ['\\', 'n'] ("x[y]\nz" : String).data))) ++
          " \n " ++ exampleEntryA.content.text :=
  ⟨by decide, record_entry_sanitizes_new_text exampleStore exampleDate
    exampleEntryA "x[y]\nz" [] [] [] [] "daily" [] none "ts1" (by decide)⟩

/-- The text and analysis fields after an update of `exampleStoreK` that
explicitly supplies an empty text and an empty analysis mapping. -/
def exampleUpdatedPair : Except Unit (Option (String × PyDict)) :=
  (update_entry exampleStoreK exampleDate (some "") (some []) none none
    none none none "ts2").map
    (fun r => r.2.map (fun e => (e.content.text, e.emotion_analysis)))

/-- C8 (counterexample): `update` with an explicitly supplied empty text
and empty analysis mapping leaves both fields unchanged (they fail the
Python truthiness tests `if text:` / `if emotion_analysis:`), contradicting
the claim that every explicitly supplied field is overwritten. -/
theorem update_entry_empty_fields_ignored :
    exampleUpdatedPair = .ok (some ("A", [("k", JVal.s "v")])) ∧
      exampleUpdatedPair ≠ .ok (some ("", [])) := by
  constructor
  · decide
  · decide

/-- C8 (amended): `update` on an existing entry overwrites each supplied
field, except that a supplied empty text or empty analysis mapping is
ignored (Python truthiness); tasks, goals, tags, chat history and
ai_summary are overwritten whenever supplied, even when empty; the
dependent metadata fields are recomputed from the applied values; every
unsupplied field is unchanged except `metadata.last_modified`. -/
theorem update_entry_field_spec (fs : FS) (d : Date) (e : Entry)
    (t : Option String) (m : Option PyDict) (tk g : Option (List PyDict))
    (tg : Option (List String)) (ch : Option (List PyDict))
    (ai : Option AiSum) (ts : String)
    (h : get_entry fs d = .ok (some e)) :
    update_entry fs d t m tk g tg ch ai ts =
      .ok (fsWrite fs (get_journal_path d)
             (.valid (updateApply e t m tk g tg ch ai ts)),
           some (updateApply e t m tk g tg ch ai ts)) ∧
    (let u := updateApply e t m tk g tg ch ai ts
     u.date = e.date ∧
     u.timestamp = e.timestamp ∧
     u.category = e.category ∧
     u.content.text =
       (match t with
        | some s => if s = "" then e.content.text else s
        | none => e.content.text) ∧
     u.metadata.word_count =
       (match t with
        | some s => if s = "" then e.metadata.word_count
                    else (pyWords s).length
        | none => e.metadata.word_count) ∧
     u.emotion_analysis =
       (match m with
        | some l => if l.isEmpty then e.emotion_analysis else l
        | none => e.emotion_analysis) ∧
     u.content.tasks = tk.getD e.content.tasks ∧
     u.metadata.has_tasks =
       (match tk with
        | some l => !l.isEmpty
        | none => e.metadata.has_tasks) ∧
     u.content.goals = g.getD e.content.goals ∧
     u.metadata.has_goals =
       (match g with
        | some l => !l.isEmpty
        | none => e.metadata.has_goals) ∧
     u.content.tags = tg.getD e.content.tags ∧
     u.content.chat_history = ch.getD e.content.chat_history ∧
     u.metadata.has_chat_history =
       (match ch with
        | some l => !l.isEmpty
        | none => e.metadata.has_chat_history) ∧
     u.content.ai_summary = ai.getD e.content.ai_summary ∧
     u.metadata.has_ai_summary =
       (match ai with
        | some a => a.truthy
        | none => e.metadata.has_ai_summary) ∧
     u.metadata.last_modified = ts) :=
  ⟨update_entry_of_found h t m tk g tg ch ai ts,
   updateApply_fields e t m tk g tg ch ai ts⟩

theorem update_entry_field_spec_witness :
    update_entry exampleStoreK exampleDate none none (some []) none none
      none none "ts2" =
      .ok (fsWrite exampleStoreK (get_journal_path exampleDate)
             (.valid (updateApply exampleEntryK none none (some []) none
                none none none "ts2")),
           some (updateApply exampleEntryK none none (some []) none
             none none none "ts2")) :=
  (update_entry_field_spec exampleStoreK exampleDate exampleEntryK none
    none (some []) none none none none "ts2" (by decide)).1

/-- Helper: the analysis mapping stored by `updateApply` when one is
supplied, as a projection equation. -/
theorem updateApply_emotion (e : Entry) (t : Option String) (m : PyDict)
    (tk g : Option (List PyDict)) (tg : Option (List String))
    (ch : Option (List PyDict)) (ai : Option AiSum) (ts : String) :
    (updateApply e t (some m) tk g tg ch ai ts).emotion_analysis =
      if m.isEmpty then e.emotion_analysis else m := by
  obtain ⟨_, _, _, _, _, hemo, _⟩ :=
    updateApply_fields e t (some m) tk g tg ch ai ts
  exact hemo

/-- C5: `upsert_merge` with analysis mapping `M_new` over an existing
entry with analysis `M_old` stores the shallow key-by-key merge: every key
of `M_new` carries its `M_new` value, every other key keeps its `M_old`
value.  (`M_new` carries the Python `dict` invariant of unique keys.) -/
theorem record_entry_emotion_shallow_merge (fs : FS) (d : Date)
    (e : Entry) (B : String) (Mnew : PyDict) (tk g : List PyDict)
    (tg : List String) (cat : String) (ch : List PyDict)
    (ai : Option String) (ts : String)
    (h : get_entry fs d = .ok (some e))
    (hnd : (Mnew.map Prod.fst).Nodup) :
    ∃ fs' e', record_entry fs B Mnew d tk g tg cat ch ai ts =
        .ok (fs', some e') ∧
      (∀ k v, dictLookup Mnew k = some v →
        dictLookup e'.emotion_analysis k = some v) ∧
      (∀ k, dictLookup Mnew k = none →
        dictLookup e'.emotion_analysis k =
          dictLookup e.emotion_analysis k) := by
  rw [record_entry_of_found h, update_entry_of_found h]
  refine ⟨_, _, rfl, ?_, ?_⟩
  · intro k v hkv
    rw [updateApply_emotion]
    have hne : ¬ (dictUpdate e.emotion_analysis Mnew).isEmpty = true := by
      intro hE
      obtain ⟨_, hnew⟩ := dictUpdate_eq_nil _ _ (List.isEmpty_iff.mp hE)
      rw [hnew] at hkv
      simp [dictLookup] at hkv
    rw [if_neg hne]
    exact dictLookup_dictUpdate_of_some _ _ _ _ hnd hkv
  · intro k hk
    rw [updateApply_emotion]
    by_cases hE : (dictUpdate e.emotion_analysis Mnew).isEmpty = true
    · rw [if_pos hE]
    · rw [if_neg hE]
      exact dictLookup_dictUpdate_of_none _ _ _ hk

theorem record_entry_emotion_shallow_merge_witness :
    get_entry exampleStoreK exampleDate = .ok (some exampleEntryK) ∧
    (([("k2", JVal.n 1)] : PyDict).map Prod.fst).Nodup ∧
    ∃ fs' e', record_entry exampleStoreK "B" [("k2", JVal.n 1)]
        exampleDate [] [] [] "daily" [] none "ts1" = .ok (fs', some e') ∧
      (∀ k v, dictLookup [("k2", JVal.n 1)] k = some v →
        dictLookup e'.emotion_analysis k = some v) ∧
      (∀ k, dictLookup [("k2", JVal.n 1)] k = none →
        dictLookup e'.emotion_analysis k =
          dictLookup exampleEntryK.emotion_analysis k) :=
  ⟨by decide, by decide,
   record_entry_emotion_shallow_merge exampleStoreK exampleDate
     exampleEntryK "B" [("k2", JVal.n 1)] [] [] [] "daily" [] none "ts1"
     (by decide) (by decide)⟩

/-- C2: the date-derived path is the sole identity key: starting from a
well-formed directory (distinct paths), any sequence of create /
upsert-merge / update calls keeps paths distinct, so at most one document
exists for any date `d`; and two sequential `create` calls for the same
date leave exactly one document for `d`, holding the second call's entry
(full overwrite, not a merge). -/
theorem store_single_document_per_date (fs : FS) (ops : List Op)
    (d : Date) (t1 t2 : String) (m1 m2 : PyDict)
    (tk1 tk2 g1 g2 : List PyDict) (tg1 tg2 : List String)
    (cat1 cat2 : String) (ch1 ch2 : List PyDict) (ai1 ai2 : Option String)
    (ts1 ts2 : String) (h : (fs.map Prod.fst).Nodup) :
    ((runOps fs ops).map Prod.fst).Nodup ∧
    countFor (runOps fs ops) (get_journal_path d) ≤ 1 ∧
    get_entry ((create_entry ((create_entry fs t1 m1 d tk1 g1 tg1 cat1
        ch1 ai1 ts1).1) t2 m2 d tk2 g2 tg2 cat2 ch2 ai2 ts2).1) d =
      .ok (some (mkCreatedEntry t2 m2 d tk2 g2 tg2 cat2 ch2 ai2 ts2)) ∧
    countFor ((create_entry ((create_entry fs t1 m1 d tk1 g1 tg1 cat1
        ch1 ai1 ts1).1) t2 m2 d tk2 g2 tg2 cat2 ch2 ai2 ts2).1)
      (get_journal_path d) = 1 := by
  refine ⟨nodup_runOps ops fs h,
    countFor_le_one_of_nodup _ _ (nodup_runOps ops fs h), ?_, ?_⟩
  · unfold create_entry get_entry
    rw [fsLookup_fsWrite_self]
  · exact countFor_fsWrite_self _ _ _ (nodup_keys_fsWrite _ _ _ h)

theorem store_single_document_per_date_witness :
    (([] : FS).map Prod.fst).Nodup ∧
    get_entry ((create_entry ((create_entry ([] : FS) "A" [] exampleDate
        [] [] [] "daily" [] none "ts0").1) "B" [] exampleDate [] [] []
        "daily" [] none "ts1").1) exampleDate =
      .ok (some (mkCreatedEntry "B" [] exampleDate [] [] [] "daily" []
        none "ts1")) :=
  ⟨by decide,
   (store_single_document_per_date [] [] exampleDate "A" "B" [] [] [] []
     [] [] [] [] "daily" "daily" [] [] none none "ts0" "ts1"
     (by decide)).2.2.1⟩

/-- A second valid entry, for a later date, used by the scan witnesses. -/
def exampleEntryB : Entry :=
  mkCreatedEntry "C" [] ⟨2024, 2, 1⟩ [] [] [] "daily" [] none "ts3"

/-- C7: a scan directory holding one corrupted (non-JSON) file and two
valid entry documents: `get_all_entries` returns exactly the two valid
entries, sorted ascending by their date strings, and logs one warning
naming the corrupted path; the corrupted document never aborts the
scan. -/
theorem get_all_entries_two_valid_one_corrupt (p1 p2 p3 : String)
    (e1 e2 : Entry) (h1 : strEndsWith p1 ".json" = true)
    (h2 : strEndsWith p2 ".json" = true)
    (h3 : strEndsWith p3 ".json" = true) :
    (get_all_entries [(p1, RawDoc.valid e1), (p2, RawDoc.corrupt),
        (p3, RawDoc.valid e2)]).1 =
      (if strLeB e1.date e2.date = true then [e1, e2] else [e2, e1]) ∧
    (get_all_entries [(p1, RawDoc.valid e1), (p2, RawDoc.corrupt),
        (p3, RawDoc.valid e2)]).2 = [p2] ∧
    (get_all_entries [(p1, RawDoc.valid e1), (p2, RawDoc.corrupt),
        (p3, RawDoc.valid e2)]).1.Pairwise
      (fun a b => strLeB a.date b.date = true) := by
  have hcol : allCollect [(p1, RawDoc.valid e1), (p2, RawDoc.corrupt),
      (p3, RawDoc.valid e2)] = ([e1, e2], [p2]) := by
    simp [allCollect, h1, h2, h3]
  have hsort : sortByDate [e1, e2] =
      if strLeB e1.date e2.date = true then [e1, e2] else [e2, e1] := by
    by_cases hle : strLeB e1.date e2.date = true
    · simp [sortByDate, insertSorted, hle]
    · simp [sortByDate, insertSorted, hle]
  refine ⟨?_, ?_, ?_⟩
  · show (sortByDate (allCollect _).1) = _
    rw [hcol, hsort]
  · show (allCollect _).2 = _
    rw [hcol]
  · show (sortByDate (allCollect _).1).Pairwise _
    exact pairwise_sortByDate _

theorem get_all_entries_two_valid_one_corrupt_witness :
    strEndsWith "2024-01/2024-01-05.json" ".json" = true ∧
    (get_all_entries [("2024-01/2024-01-05.json",
        RawDoc.valid exampleEntryA), ("2024-01/zz.json", RawDoc.corrupt),
        ("2024-02/2024-02-01.json", RawDoc.valid exampleEntryB)]).2 =
      ["2024-01/zz.json"] :=
  ⟨by decide,
   (get_all_entries_two_valid_one_corrupt "2024-01/2024-01-05.json"
     "2024-01/zz.json" "2024-02/2024-02-01.json" exampleEntryA
     exampleEntryB (by decide) (by decide) (by decide)).2.1⟩

/-- C6: `search(start, end)` over a store whose entries carry the
canonical formatted dates the store itself writes: the result is sorted
ascending by the date strings and hence by the dates themselves; it
contains no entry whose parsed date lies strictly outside the inclusive
interval; and an eligible entry (valid `.json` document whose date parses
into the interval) is in the result exactly when some requested tag
appears in its tag list (or no tag filter is given) and its
`primary_emotion` matches the requested emotion case-insensitively (or no
truthy emotion filter is given). -/
theorem search_entries_spec (fs : FS) (s e : Date) (tg : List String)
    (em : Option String)
    (hc : ∀ p ent, (p, RawDoc.valid ent) ∈ fs →
      ∃ dd, dd.isValid = true ∧ ent.date = formatDate dd) :
    (search_entries fs s e tg em).1.Pairwise
      (fun a b => strLeB a.date b.date = true) ∧
    (search_entries fs s e tg em).1.Pairwise
      (fun a b => ∃ da db, da.isValid = true ∧ db.isValid = true ∧
        a.date = formatDate da ∧ b.date = formatDate db ∧
        dateLeB da db = true) ∧
    (∀ a ∈ (search_entries fs s e tg em).1, ∃ ed,
      parseDate a.date = some ed ∧ dateLeB s ed = true ∧
        dateLeB ed e = true) ∧
    (∀ p ent ed, (p, RawDoc.valid ent) ∈ fs →
      strEndsWith p ".json" = true → parseDate ent.date = some ed →
      dateLeB s ed = true → dateLeB ed e = true →
      (ent ∈ (search_entries fs s e tg em).1 ↔
        ((tg = [] ∨ ∃ t ∈ tg, t ∈ ent.content.tags) ∧
         (∀ es, em = some es → es ≠ "" →
           ∃ pe, dictLookup ent.emotion_analysis "primary_emotion" =
               some (JVal.s pe) ∧ pyLower pe = pyLower es)))) := by
  have hmem : ∀ a, a ∈ (search_entries fs s e tg em).1 ↔
      a ∈ (searchCollect s e tg em fs).1 := by
    intro a
    show a ∈ sortByDate (searchCollect s e tg em fs).1 ↔ _
    exact mem_sortByDate _ _
  have hpw : (search_entries fs s e tg em).1.Pairwise
      (fun a b => strLeB a.date b.date = true) := pairwise_sortByDate _
  refine ⟨hpw, ?_, ?_, ?_⟩
  · refine List.Pairwise.imp_of_mem ?_ hpw
    intro a b hma hmb hab
    obtain ⟨p, hpa, _⟩ :=
      (mem_searchCollect s e tg em fs a).mp ((hmem a).mp hma)
    obtain ⟨q, hqb, _⟩ :=
      (mem_searchCollect s e tg em fs b).mp ((hmem b).mp hmb)
    obtain ⟨da, hda, hfa⟩ := hc p a hpa
    obtain ⟨db, hdb, hfb⟩ := hc q b hqb
    refine ⟨da, db, hda, hdb, hfa, hfb, ?_⟩
    rw [hfa, hfb] at hab
    rw [← strLeB_formatDate hda hdb]
    exact hab
  · intro a hma
    obtain ⟨p, _, _, ⟨ed, hed, hr1, hr2⟩, _⟩ :=
      (mem_searchCollect s e tg em fs a).mp ((hmem a).mp hma)
    exact ⟨ed, hed, hr1, hr2⟩
  · intro p ent ed hpent hjson hed hr1 hr2
    rw [hmem ent, mem_searchCollect]
    constructor
    · rintro ⟨q, _, _, _, htag, hemo⟩
      exact ⟨(tagKeep_iff tg ent).mp htag, (emoKeep_iff em ent).mp hemo⟩
    · rintro ⟨htag, hemo⟩
      exact ⟨p, hpent, hjson, ⟨ed, hed, hr1, hr2⟩,
        (tagKeep_iff tg ent).mpr htag, (emoKeep_iff em ent).mpr hemo⟩

theorem search_entries_spec_witness :
    (search_entries exampleStore ⟨2024, 1, 1⟩ ⟨2024, 12, 31⟩ []
      none).1.Pairwise (fun a b => strLeB a.date b.date = true) :=
  (search_entries_spec exampleStore ⟨2024, 1, 1⟩ ⟨2024, 12, 31⟩ [] none
    (by
      intro p ent h
      simp only [exampleStore, List.mem_cons, List.not_mem_nil,
        or_false] at h
      have hent : ent = exampleEntryA := by
        have := congrArg Prod.snd h
        simpa using this
      subst hent
      exact ⟨exampleDate, by decide, by decide⟩)).1

end BujoNow
